import Mathlib

/-!
# Hydrogen 2p_z orbital point sampler (`index.cpp`)

A shallow embedding of the sampling core of `index.cpp` and of the read loop of
`render_points`, followed by theorems about it.

Modelling conventions.

* `float` arithmetic is idealised to exact arithmetic on `ℝ`; rounding and overflow of finite
  values are not modelled.
* A `float` that is not a finite number (an infinity or a NaN) is represented by `none`.
  The only operations of the sampler that turn finite arguments into such a value are `log`
  (pole at `0`, domain error below `0`) and `acos` (domain error outside `[-1, 1]`).
* The generator `std::mt19937 rng` together with `std::uniform_real_distribution` is a stream of
  canonical draws `stream 0, stream 1, ...` and a read position; every call of a distribution on
  `rng` reads the draw at the position, scales it to the distribution's range and advances the
  position by one.
* The global constants `a0` and `num_points` are parameters of the functions that read them; the
  values of the source are `a0 = 1.0` and `num_points = 100000`.
-/

namespace OrbitalVisualizer

/-! ## Constants (lines 8-10) -/

/-- Constant `PI` of line 8, idealised to the real number π. -/
noncomputable def PI : ℝ := Real.pi

/-- Bohr radius `a0` of line 9. -/
noncomputable def a0 : ℝ := 1.0

/-- Candidate budget `num_points` of line 10. -/
def num_points : Nat := 100000

/-! ## Density model (lines 13-18, 33) -/

/-- Function `probability_density_2p_z` of lines 13-18, with the global `a0` as a parameter. -/
noncomputable def probability_density_2p_z (a0 r theta : ℝ) : ℝ :=
  let normalization := 1.0 / (32.0 * PI * a0 ^ 5)
  let radial_part := r * r * Real.exp (-r / a0)
  let angular_part := Real.cos theta * Real.cos theta
  normalization * radial_part * angular_part

/-- Local `max_density` of line 33, with the global `a0` as a parameter. -/
noncomputable def max_density (a0 : ℝ) : ℝ :=
  1.0 / (32.0 * PI * a0 ^ 5) * (2.0 * a0) ^ 2 * Real.exp (-2.0)

/-! ## Library functions with a restricted domain -/

/-- C `log`: a finite value exactly for a positive argument; `log(0)` is `-inf` and the
logarithm of a negative number is NaN. -/
noncomputable def log (x : ℝ) : Option ℝ :=
  if 0 < x then some (Real.log x) else none

/-- C `acos`: a finite value exactly for an argument in `[-1, 1]`, NaN outside. -/
noncomputable def acos (x : ℝ) : Option ℝ :=
  if -1 ≤ x ∧ x ≤ 1 then some (Real.arccos x) else none

/-! ## Random source (lines 23-25) -/

/-- Generator state: the stream of canonical draws and the number of draws consumed. -/
structure Rng where
  /-- The canonical draw delivered by the `k`-th call. -/
  stream : Nat → ℝ
  /-- Number of draws consumed so far. -/
  pos : Nat

/-- One call `d(rng)` of a `std::uniform_real_distribution<float> d(a, b)`: the next canonical
draw `u` scaled to `a + (b - a) * u`, and the generator advanced by one draw. -/
noncomputable def uniform_real_distribution (a b : ℝ) (rng : Rng) : ℝ × Rng :=
  (a + (b - a) * rng.stream rng.pos, { rng with pos := rng.pos + 1 })

/-- Distribution `dist(0.0, 1.0)` of line 24. -/
noncomputable def dist (rng : Rng) : ℝ × Rng :=
  uniform_real_distribution 0.0 1.0 rng

/-- Distribution `dist_angle(0.0, 2 * PI)` of line 25. -/
noncomputable def dist_angle (rng : Rng) : ℝ × Rng :=
  uniform_real_distribution 0.0 (2 * PI) rng

/-! ## Point sampler (lines 21-46) -/

/-- Mutable state of `generate_points_2p_z`: the vector `points` and the generator `rng`. -/
structure SamplerState where
  /-- The flattened output vector. -/
  points : List ℝ
  /-- The generator. -/
  rng : Rng

/-- Cartesian coordinates `x, y, z` of lines 36-38, in the order they are pushed (lines 40-42). -/
noncomputable def cartesian (r theta phi : ℝ) : List ℝ :=
  let x := r * Real.sin theta * Real.cos phi
  let y := r * Real.sin theta * Real.sin phi
  let z := r * Real.cos theta
  [x, y, z]

/-- Radius of line 28, `r = -a0 * log(u1)`; not a finite number when `log(u1)` is not. -/
noncomputable def radius (a0 u1 : ℝ) : Option ℝ :=
  (log u1).map (fun l => -a0 * l)

/-- Polar angle of line 29, `theta = acos(1 - 2 * u2)`. -/
noncomputable def polar_angle (u2 : ℝ) : Option ℝ :=
  acos (1 - 2 * u2)

/-- Body of the loop of `generate_points_2p_z`, lines 28-43. When `r` or `theta` is not a
finite number, `probability` is NaN (`inf * inf * exp(-inf) = inf * 0`, or `cos(NaN)`), the
comparison of line 35 is false and nothing is pushed. -/
noncomputable def loop_body (a0 : ℝ) (st : SamplerState) : SamplerState :=
  let (u1, rng1) := dist st.rng
  let r := radius a0 u1
  let (u2, rng2) := dist rng1
  let theta := polar_angle u2
  let (phi, rng3) := dist_angle rng2
  let (u3, rng4) := dist rng3
  match r, theta with
  | some r, some theta =>
    let probability := probability_density_2p_z a0 r theta
    if u3 ≤ probability / max_density a0 then
      { points := st.points ++ cartesian r theta phi, rng := rng4 }
    else
      { points := st.points, rng := rng4 }
  | _, _ => { points := st.points, rng := rng4 }

/-- The loop `for (int i = 0; i < num_points; ++i)` of line 27: `n` iterations of the body. -/
noncomputable def loop (a0 : ℝ) : Nat → SamplerState → SamplerState
  | 0, st => st
  | n + 1, st => loop a0 n (loop_body a0 st)

/-- State at the entry of the loop, lines 22-23: no point, no draw consumed; the seed of line 23
is the choice of `stream`. -/
def sampler_init (stream : Nat → ℝ) : SamplerState :=
  { points := [], rng := { stream := stream, pos := 0 } }

/-- Function `generate_points_2p_z` of lines 21-46. -/
noncomputable def generate_points_2p_z (a0 : ℝ) (num_points : Nat) (stream : Nat → ℝ) :
    List ℝ :=
  (loop a0 num_points (sampler_init stream)).points

/-! ## Vertex emission (lines 48-56) -/

/-- Loop of `render_points`, lines 52-54, from index `i`: every iteration reads `points[i]`,
`points[i + 1]`, `points[i + 2]` and emits them as one vertex, then advances `i` by 3. The
result is `none` when a read is out of bounds or when the fuel runs out. -/
def render_loop {α : Type} (points : List α) : Nat → Nat → Option (List (α × α × α))
  | 0, _ => none
  | fuel + 1, i =>
    if i < points.length then
      match points[i]?, points[i + 1]?, points[i + 2]? with
      | some x, some y, some z =>
        (render_loop points fuel (i + 3)).map (fun vs => (x, y, z) :: vs)
      | _, _, _ => none
    else
      some []

/-- Function `render_points` of lines 48-56: the vertices passed to `glVertex3f`, in order. -/
def render_points {α : Type} (points : List α) : Option (List (α × α × α)) :=
  render_loop points (points.length + 1) 0

/-! ## The sampler in the words of the specification -/

/-- The four values drawn for one candidate. -/
structure Draw where
  /-- Draw for the radius. -/
  U1 : ℝ
  /-- Draw for the polar angle. -/
  U2 : ℝ
  /-- Azimuthal angle. -/
  phi : ℝ
  /-- Draw for the acceptance test. -/
  U3 : ℝ

/-- The four values a candidate draws when the generator is at position `p`: three canonical
draws, the third one scaled to `[0, 2π)`. -/
noncomputable def draws_at (stream : Nat → ℝ) (p : Nat) : Draw :=
  { U1 := stream p, U2 := stream (p + 1), phi := 2 * PI * stream (p + 2), U3 := stream (p + 3) }

/-- The four values of candidate `i` of a run that starts at position 0. -/
noncomputable def draws (stream : Nat → ℝ) (i : Nat) : Draw :=
  draws_at stream (4 * i)

/-- Acceptance test of the specification: `r = -a0 * ln(U1)` and `theta = acos(1 - 2 * U2)` are
defined and `U3 ≤ density(r, theta) / density_bound()`. -/
def accepted (a0 : ℝ) (d : Draw) : Prop :=
  0 < d.U1 ∧ (0 ≤ d.U2 ∧ d.U2 ≤ 1) ∧
    d.U3 ≤ probability_density_2p_z a0 (-a0 * Real.log d.U1) (Real.arccos (1 - 2 * d.U2))
      / max_density a0

/-- Acceptance is decided classically. -/
noncomputable instance accepted_decidable (a0 : ℝ) (d : Draw) : Decidable (accepted a0 d) :=
  Classical.propDecidable _

/-- Cartesian triple of a candidate in the words of the specification:
`(r·sinθ·cosφ, r·sinθ·sinφ, r·cosθ)` with `r = -a0 * ln(U1)` and `θ = acos(1 - 2 * U2)`. -/
noncomputable def triple (a0 : ℝ) (d : Draw) : List ℝ :=
  [(-a0 * Real.log d.U1) * Real.sin (Real.arccos (1 - 2 * d.U2)) * Real.cos d.phi,
   (-a0 * Real.log d.U1) * Real.sin (Real.arccos (1 - 2 * d.U2)) * Real.sin d.phi,
   (-a0 * Real.log d.U1) * Real.cos (Real.arccos (1 - 2 * d.U2))]

/-- Contribution of a candidate to the point cloud in the words of the specification: its
Cartesian triple when the candidate is accepted, nothing otherwise. -/
noncomputable def accepted_points (a0 : ℝ) (d : Draw) : List ℝ :=
  if accepted a0 d then triple a0 d else []

/-- Number of accepted candidates among the first `n`. -/
noncomputable def accepted_count (a0 : ℝ) (n : Nat) (stream : Nat → ℝ) : Nat :=
  ((List.range n).filter (fun i => decide (accepted a0 (draws stream i)))).length

/-- A draw sequence for a worked run: `U1 = e^(-2)`, `U2 = 0`, a zero draw for `phi`,
`U3 = 1 / 2`, and zeros afterwards. -/
noncomputable def example_stream : Nat → ℝ :=
  fun k => if k = 0 then Real.exp (-2) else if k = 3 then 1 / 2 else 0

/-! ## Distribution of the accepted candidates -/

/-- Proposal density of `(r, θ)`: `r = -a0 * ln(U1)` has density `(1 / a0) * e^(-r / a0)` on
`r > 0` and `θ = acos(1 - 2 * U2)` has density `sin(θ) / 2` on `(0, π)`. -/
noncomputable def proposal_density (a0 r theta : ℝ) : ℝ :=
  (1 / a0) * Real.exp (-r / a0) * (Real.sin theta / 2)

/-- Probability that a candidate at `(r, θ)` passes the test of line 35 for a uniform `U3`:
the quotient `probability / max_density`. -/
noncomputable def acceptance_probability (a0 r theta : ℝ) : ℝ :=
  probability_density_2p_z a0 r theta / max_density a0

/-- Density of an accepted candidate in `(r, θ)`, up to the overall acceptance rate: the
proposal density multiplied by the acceptance probability. -/
noncomputable def accepted_density (a0 r theta : ℝ) : ℝ :=
  proposal_density a0 r theta * acceptance_probability a0 r theta

/-- The 2p_z position density expressed in spherical coordinates: the density multiplied by the
volume element `r^2 * sin(θ)`. -/
noncomputable def position_density (a0 r theta : ℝ) : ℝ :=
  probability_density_2p_z a0 r theta * r ^ 2 * Real.sin theta

/-- Mean over `(U1, U2)`, uniform on the unit square, of the acceptance probability of the
candidate they define. -/
noncomputable def mean_acceptance (a0 : ℝ) : ℝ :=
  ∫ u1 in (0 : ℝ)..1, ∫ u2 in (0 : ℝ)..1,
    acceptance_probability a0 (-a0 * Real.log u1) (Real.arccos (1 - 2 * u2))

/-! ## Density model: bounds -/

/-- The radial factor is maximal at `r = 2 * a0`. -/
lemma radial_part_le (a0 r : ℝ) (ha : 0 < a0) (hr : 0 ≤ r) :
    r * r * Real.exp (-r / a0) ≤ (2 * a0) ^ 2 * Real.exp (-2) := by
  have h1 : r / (2 * a0) ≤ Real.exp (r / (2 * a0) - 1) := by
    have := Real.add_one_le_exp (r / (2 * a0) - 1)
    linarith
  have h0 : 0 ≤ r / (2 * a0) := by positivity
  have h2 : (r / (2 * a0)) ^ 2 ≤ Real.exp (r / (2 * a0) - 1) ^ 2 :=
    pow_le_pow_left₀ h0 h1 2
  have h3 : Real.exp (r / (2 * a0) - 1) ^ 2 = Real.exp (r / a0) * Real.exp (-2) := by
    rw [← Real.exp_add, sq, ← Real.exp_add]
    congr 1
    field_simp
    ring
  have h4 : r * r = (r / (2 * a0)) ^ 2 * (2 * a0) ^ 2 := by
    field_simp
    ring
  have h5 : Real.exp (-r / a0) * Real.exp (r / a0) = 1 := by
    rw [← Real.exp_add]
    have : -r / a0 + r / a0 = 0 := by ring
    rw [this, Real.exp_zero]
  have hpos : 0 < Real.exp (-r / a0) := Real.exp_pos _
  have hsq : 0 ≤ (2 * a0) ^ 2 := by positivity
  calc r * r * Real.exp (-r / a0)
      = (r / (2 * a0)) ^ 2 * ((2 * a0) ^ 2 * Real.exp (-r / a0)) := by rw [h4]; ring
    _ ≤ Real.exp (r / (2 * a0) - 1) ^ 2 * ((2 * a0) ^ 2 * Real.exp (-r / a0)) :=
        mul_le_mul_of_nonneg_right h2 (by positivity)
    _ = (2 * a0) ^ 2 * Real.exp (-2) * (Real.exp (-r / a0) * Real.exp (r / a0)) := by
        rw [h3]; ring
    _ = (2 * a0) ^ 2 * Real.exp (-2) := by rw [h5, mul_one]

/-- The normalization constant is positive for a positive Bohr radius. -/
lemma normalization_pos (a0 : ℝ) (ha : 0 < a0) : 0 < 1 / (32 * PI * a0 ^ 5) := by
  have hpi : 0 < PI := Real.pi_pos
  positivity

/-- The envelope is positive for a positive Bohr radius. -/
lemma max_density_pos (a0 : ℝ) (ha : 0 < a0) : 0 < max_density a0 := by
  have hn := normalization_pos a0 ha
  have he : 0 < Real.exp (-2) := Real.exp_pos _
  have hs : 0 < (2 * a0) ^ 2 := by positivity
  unfold max_density
  norm_num
  norm_num at hn
  positivity

/-- Closed form of the density with plain numerals. -/
lemma probability_density_2p_z_eq (a0 r theta : ℝ) :
    probability_density_2p_z a0 r theta
      = 1 / (32 * PI * a0 ^ 5) * (r * r * Real.exp (-r / a0)) * Real.cos theta ^ 2 := by
  have h1 : (1.0 : ℝ) = 1 := by norm_num
  have h32 : (32.0 : ℝ) = 32 := by norm_num
  simp only [probability_density_2p_z, h1, h32]
  ring

/-- Closed form of the envelope with plain numerals. -/
lemma max_density_eq (a0 : ℝ) :
    max_density a0 = 1 / (32 * PI * a0 ^ 5) * ((2 * a0) ^ 2 * Real.exp (-2)) := by
  have h1 : (1.0 : ℝ) = 1 := by norm_num
  have h2 : (2.0 : ℝ) = 2 := by norm_num
  have h32 : (32.0 : ℝ) = 32 := by norm_num
  simp only [max_density, h1, h2, h32]
  ring

/-- Claim C1. For every `a0 > 0`, every radius `r ≥ 0` and every polar angle `theta`, the
density `probability_density_2p_z` is at most the envelope `max_density`, and the acceptance
quotient `probability / max_density` of line 35 is at most 1. -/
theorem density_le_max_density (a0 r theta : ℝ) (ha : 0 < a0) (hr : 0 ≤ r) :
    probability_density_2p_z a0 r theta ≤ max_density a0 ∧
      probability_density_2p_z a0 r theta / max_density a0 ≤ 1 := by
  have hle : probability_density_2p_z a0 r theta ≤ max_density a0 := by
    rw [probability_density_2p_z_eq, max_density_eq]
    have hn := (normalization_pos a0 ha).le
    have hrad := radial_part_le a0 r ha hr
    have hrad0 : 0 ≤ r * r * Real.exp (-r / a0) := by positivity
    have hc1 : Real.cos theta ^ 2 ≤ 1 := by
      have := Real.cos_sq_le_one theta
      exact this
    have hc0 : 0 ≤ Real.cos theta ^ 2 := sq_nonneg _
    calc 1 / (32 * PI * a0 ^ 5) * (r * r * Real.exp (-r / a0)) * Real.cos theta ^ 2
        ≤ 1 / (32 * PI * a0 ^ 5) * (r * r * Real.exp (-r / a0)) * 1 :=
          mul_le_mul_of_nonneg_left hc1 (mul_nonneg hn hrad0)
      _ = 1 / (32 * PI * a0 ^ 5) * (r * r * Real.exp (-r / a0)) := mul_one _
      _ ≤ 1 / (32 * PI * a0 ^ 5) * ((2 * a0) ^ 2 * Real.exp (-2)) :=
          mul_le_mul_of_nonneg_left hrad hn
  exact ⟨hle, (div_le_one (max_density_pos a0 ha)).mpr hle⟩

/-- Witness of claim C1 at the Bohr radius of the source, `r = 2` and `theta = 0`. -/
theorem density_le_max_density_witness :
    probability_density_2p_z 1 2 0 ≤ max_density 1 ∧
      probability_density_2p_z 1 2 0 / max_density 1 ≤ 1 :=
  density_le_max_density 1 2 0 (by norm_num) (by norm_num)

/-- Claim C8. For every `a0 > 0`, the envelope `max_density` equals the density evaluated at
`r = 2 * a0`, `theta = 0`, and it is strictly positive. -/
theorem max_density_eq_density_at_max (a0 : ℝ) (ha : 0 < a0) :
    max_density a0 = probability_density_2p_z a0 (2 * a0) 0 ∧ 0 < max_density a0 := by
  refine ⟨?_, max_density_pos a0 ha⟩
  rw [probability_density_2p_z_eq, max_density_eq]
  have h : -(2 * a0) / a0 = -2 := by
    field_simp
  rw [h, Real.cos_zero]
  ring

/-- Witness of claim C8 at the Bohr radius of the source. -/
theorem max_density_eq_density_at_max_witness :
    (0 : ℝ) < 1 ∧ max_density 1 = probability_density_2p_z 1 (2 * 1) 0 ∧ 0 < max_density 1 :=
  ⟨by norm_num, max_density_eq_density_at_max 1 (by norm_num)⟩

/-- Claim C9. For every `a0 > 0` the density is a real number at every `r` and `theta` (the
function is total, it has no error case) and that number is non-negative; in particular for
`r ≥ 0` and `theta` in `[0, π]`. -/
theorem probability_density_2p_z_nonneg (a0 r theta : ℝ) (ha : 0 < a0) :
    ∃ v : ℝ, probability_density_2p_z a0 r theta = v ∧ 0 ≤ v := by
  refine ⟨_, rfl, ?_⟩
  rw [probability_density_2p_z_eq]
  have hn := (normalization_pos a0 ha).le
  have hrad0 : 0 ≤ r * r * Real.exp (-r / a0) :=
    mul_nonneg (mul_self_nonneg r) (Real.exp_pos _).le
  exact mul_nonneg (mul_nonneg hn hrad0) (sq_nonneg _)

/-- Witness of claim C9 at the Bohr radius of the source, `r = 2` and `theta = π`. -/
theorem probability_density_2p_z_nonneg_witness :
    (0 : ℝ) < 1 ∧ ∃ v : ℝ, probability_density_2p_z 1 2 Real.pi = v ∧ 0 ≤ v :=
  ⟨by norm_num, probability_density_2p_z_nonneg 1 2 Real.pi (by norm_num)⟩

/-! ## Point sampler: the loop as a fold over the candidates -/

/-- A call of `dist` returns the canonical draw itself. -/
lemma dist_eq (rng : Rng) :
    dist rng = (rng.stream rng.pos, { stream := rng.stream, pos := rng.pos + 1 }) := by
  have h0 : (0.0 : ℝ) = 0 := by norm_num
  have h1 : (1.0 : ℝ) = 1 := by norm_num
  simp [dist, uniform_real_distribution, h0, h1]

/-- A call of `dist_angle` returns the canonical draw scaled by `2 * PI`. -/
lemma dist_angle_eq (rng : Rng) :
    dist_angle rng
      = (2 * PI * rng.stream rng.pos, { stream := rng.stream, pos := rng.pos + 1 }) := by
  have h0 : (0.0 : ℝ) = 0 := by norm_num
  simp [dist_angle, uniform_real_distribution, h0]

/-- The radius is the finite number `-a0 * ln(u1)` exactly for a positive draw. -/
lemma radius_eq (a0 u1 : ℝ) :
    radius a0 u1 = if 0 < u1 then some (-a0 * Real.log u1) else none := by
  unfold radius log
  split_ifs <;> rfl

/-- The polar angle is the finite number `arccos (1 - 2 * u2)` exactly for a draw in
`[0, 1]`. -/
lemma polar_angle_eq (u2 : ℝ) :
    polar_angle u2 = if 0 ≤ u2 ∧ u2 ≤ 1 then some (Real.arccos (1 - 2 * u2)) else none := by
  unfold polar_angle acos
  have h : (-1 ≤ 1 - 2 * u2 ∧ 1 - 2 * u2 ≤ 1) ↔ (0 ≤ u2 ∧ u2 ≤ 1) := by
    constructor
    · rintro ⟨h1, h2⟩
      exact ⟨by linarith, by linarith⟩
    · rintro ⟨h1, h2⟩
      exact ⟨by linarith, by linarith⟩
  by_cases hu : 0 ≤ u2 ∧ u2 ≤ 1
  · rw [if_pos hu, if_pos (h.mpr hu)]
  · rw [if_neg hu, if_neg (fun hc => hu (h.mp hc))]

/-- One iteration reads four draws, in the order `U1`, `U2`, `phi`, `U3`, and appends the
contribution of the candidate they define. -/
lemma loop_body_eq (a0 : ℝ) (st : SamplerState) :
    loop_body a0 st
      = { points := st.points ++ accepted_points a0 (draws_at st.rng.stream st.rng.pos),
          rng := { stream := st.rng.stream, pos := st.rng.pos + 4 } } := by
  unfold loop_body
  simp only [dist_eq, dist_angle_eq, radius_eq, polar_angle_eq, Nat.add_assoc, Nat.reduceAdd]
  unfold accepted_points triple accepted draws_at cartesian
  by_cases h1 : 0 < st.rng.stream st.rng.pos
  · by_cases h2 : 0 ≤ st.rng.stream (st.rng.pos + 1) ∧ st.rng.stream (st.rng.pos + 1) ≤ 1
    · by_cases h3 : st.rng.stream (st.rng.pos + 3)
          ≤ probability_density_2p_z a0 (-a0 * Real.log (st.rng.stream st.rng.pos))
              (Real.arccos (1 - 2 * st.rng.stream (st.rng.pos + 1))) / max_density a0
      · simp only [h1, h2, h3, ↓reduceIte, and_self, true_and]
      · simp only [h1, h2, h3, ↓reduceIte, and_self, true_and, List.append_nil]
    · simp only [h1, h2, ↓reduceIte, true_and, false_and, List.append_nil]
  · simp only [h1, ↓reduceIte, false_and, List.append_nil]

/-- The last iteration of the loop, peeled off. -/
lemma loop_succ (a0 : ℝ) (n : Nat) (st : SamplerState) :
    loop a0 (n + 1) st = loop_body a0 (loop a0 n st) := by
  induction n generalizing st with
  | zero => rfl
  | succ k ih =>
    show loop a0 (k + 1) (loop_body a0 st) = loop_body a0 (loop a0 (k + 1) st)
    rw [ih (loop_body a0 st)]
    rfl

/-- State after `n` iterations: the contributions of the `n` candidates appended in order, and
`4 * n` draws consumed. -/
lemma loop_eq (a0 : ℝ) (n : Nat) (st : SamplerState) :
    loop a0 n st
      = { points := st.points ++ (List.range n).flatMap
            (fun i => accepted_points a0 (draws_at st.rng.stream (st.rng.pos + 4 * i))),
          rng := { stream := st.rng.stream, pos := st.rng.pos + 4 * n } } := by
  induction n with
  | zero => simp [loop]
  | succ k ih =>
    rw [loop_succ, ih, loop_body_eq]
    simp only [List.range_succ, List.flatMap_append, List.flatMap_singleton, List.append_assoc,
      Nat.mul_succ, Nat.add_assoc]

/-- The output of the sampler is the concatenation of the contributions of its candidates. -/
lemma generate_points_2p_z_eq (a0 : ℝ) (n : Nat) (stream : Nat → ℝ) :
    generate_points_2p_z a0 n stream
      = (List.range n).flatMap (fun i => accepted_points a0 (draws stream i)) := by
  unfold generate_points_2p_z
  rw [loop_eq]
  simp [draws, sampler_init]

/-- Concatenating the contributions of all candidates is concatenating the triples of the
accepted ones. -/
lemma flatMap_accepted_points (a0 : ℝ) (stream : Nat → ℝ) (l : List Nat) :
    l.flatMap (fun i => accepted_points a0 (draws stream i))
      = (l.filter (fun i => decide (accepted a0 (draws stream i)))).flatMap
          (fun i => triple a0 (draws stream i)) := by
  induction l with
  | nil => rfl
  | cons i t ih =>
    rw [List.flatMap_cons, ih, List.filter_cons]
    by_cases h : accepted a0 (draws stream i)
    · have hd : decide (accepted a0 (draws stream i)) = true := decide_eq_true h
      rw [if_pos hd, List.flatMap_cons]
      simp only [accepted_points, if_pos h]
    · have hd : ¬ decide (accepted a0 (draws stream i)) = true := by simpa using h
      rw [if_neg hd]
      simp only [accepted_points, if_neg h, List.nil_append]

/-- Length of a concatenation of triples. -/
lemma length_flatMap_triple (a0 : ℝ) (stream : Nat → ℝ) (l : List Nat) :
    (l.flatMap (fun i => triple a0 (draws stream i))).length = 3 * l.length := by
  induction l with
  | nil => rfl
  | cons i t ih =>
    have h3 : (triple a0 (draws stream i)).length = 3 := rfl
    rw [List.flatMap_cons, List.length_append, ih, List.length_cons, h3]
    omega

/-- The number of accepted candidates is at most the number of candidates. -/
lemma accepted_count_le (a0 : ℝ) (n : Nat) (stream : Nat → ℝ) :
    accepted_count a0 n stream ≤ n := by
  unfold accepted_count
  calc ((List.range n).filter (fun i => decide (accepted a0 (draws stream i)))).length
      ≤ (List.range n).length := List.length_filter_le _ _
    _ = n := List.length_range n

/-- The output vector holds three coordinates per accepted candidate. -/
lemma generate_points_2p_z_length_eq (a0 : ℝ) (n : Nat) (stream : Nat → ℝ) :
    (generate_points_2p_z a0 n stream).length = 3 * accepted_count a0 n stream := by
  rw [generate_points_2p_z_eq, flatMap_accepted_points, length_flatMap_triple]
  rfl

/-- On a vector of `3 * k` more elements than `i`, the loop of `render_points` started at `i`
with more than `k` units of fuel reads in bounds only and emits `k` vertices. -/
lemma render_loop_some {α : Type} (points : List α) :
    ∀ (k fuel i : Nat), points.length = i + 3 * k → k < fuel →
      ∃ vs, render_loop points fuel i = some vs ∧ vs.length = k := by
  intro k
  induction k with
  | zero =>
    intro fuel i hlen hfuel
    obtain ⟨f, rfl⟩ : ∃ f, fuel = f + 1 := ⟨fuel - 1, by omega⟩
    refine ⟨[], ?_, rfl⟩
    have hi : ¬ i < points.length := by omega
    simp only [render_loop, hi, ↓reduceIte]
  | succ k ih =>
    intro fuel i hlen hfuel
    obtain ⟨f, rfl⟩ : ∃ f, fuel = f + 1 := ⟨fuel - 1, by omega⟩
    obtain ⟨vs, hvs, hk⟩ := ih f (i + 3) (by omega) (by omega)
    have hi : i < points.length := by omega
    have h0 : points[i]? = some (points[i]) := List.getElem?_eq_getElem (by omega)
    have h1 : points[i + 1]? = some (points[i + 1]) := List.getElem?_eq_getElem (by omega)
    have h2 : points[i + 2]? = some (points[i + 2]) := List.getElem?_eq_getElem (by omega)
    refine ⟨(points[i], points[i + 1], points[i + 2]) :: vs, ?_, by simp [hk]⟩
    simp only [render_loop, hi, ↓reduceIte, h0, h1, h2, hvs, Option.map_some']

/-- On a vector of `3 * k` elements `render_points` reads in bounds only and emits `k`
vertices. -/
lemma render_points_some {α : Type} (points : List α) (k : Nat) (h : points.length = 3 * k) :
    ∃ vs, render_points points = some vs ∧ vs.length = k :=
  render_loop_some points k (points.length + 1) 0 (by omega) (by omega)

/-- Claim C3. The output of `generate_points_2p_z` is determined by the draws alone: it is the
concatenation, in candidate order, of the Cartesian triples of exactly the accepted candidates
(`U3 ≤ density(r, θ) / max_density` with `r = -a0 * ln(U1)`, `θ = acos(1 - 2 * U2)`), rejected
candidates contribute nothing, and two runs whose first `4 * n` draws agree return the same
list. -/
theorem generate_points_2p_z_determined (a0 : ℝ) (n : Nat) (stream : Nat → ℝ) :
    generate_points_2p_z a0 n stream
        = ((List.range n).filter (fun i => decide (accepted a0 (draws stream i)))).flatMap
            (fun i => triple a0 (draws stream i)) ∧
      ∀ stream2 : Nat → ℝ, (∀ k, k < 4 * n → stream2 k = stream k) →
        generate_points_2p_z a0 n stream2 = generate_points_2p_z a0 n stream := by
  refine ⟨by rw [generate_points_2p_z_eq, flatMap_accepted_points], ?_⟩
  intro stream2 hs
  rw [generate_points_2p_z_eq, generate_points_2p_z_eq]
  have hd : ∀ i ∈ List.range n, accepted_points a0 (draws stream2 i)
      = accepted_points a0 (draws stream i) := by
    intro i hi
    have hin : i < n := List.mem_range.mp hi
    have e : draws stream2 i = draws stream i := by
      simp only [draws, draws_at]
      rw [hs (4 * i) (by omega), hs (4 * i + 1) (by omega), hs (4 * i + 2) (by omega),
        hs (4 * i + 3) (by omega)]
    rw [e]
  simp only [List.flatMap]
  rw [List.map_congr_left hd]

/-- Claim C4. The flattened vector returned by `generate_points_2p_z` has exactly three
entries per accepted candidate; the number of accepted candidates is at most `num_points`; so
the length is a multiple of 3 and at most `3 * num_points`, every index `i` that is a multiple
of 3 below the length has `i + 2` below the length, and `render_points` reads in bounds only,
emitting one vertex per accepted candidate. -/
theorem generate_points_2p_z_length (a0 : ℝ) (n : Nat) (stream : Nat → ℝ) :
    (generate_points_2p_z a0 n stream).length = 3 * accepted_count a0 n stream ∧
      accepted_count a0 n stream ≤ n ∧
      (generate_points_2p_z a0 n stream).length ≤ 3 * n ∧
      3 ∣ (generate_points_2p_z a0 n stream).length ∧
      (∀ i, i % 3 = 0 → i < (generate_points_2p_z a0 n stream).length →
        i + 2 < (generate_points_2p_z a0 n stream).length) ∧
      ∃ vs, render_points (generate_points_2p_z a0 n stream) = some vs ∧
        vs.length = accepted_count a0 n stream := by
  have hlen := generate_points_2p_z_length_eq a0 n stream
  have hle := accepted_count_le a0 n stream
  refine ⟨hlen, hle, by omega, ⟨_, hlen⟩, ?_, render_points_some _ _ hlen⟩
  intro i hi hlt
  omega

/-- Claim C10. The loop processes exactly `n` candidates and consumes exactly `4 * n` draws;
candidate `i` starts at position `4 * i` whatever the outcome of the earlier candidates, reads
the four draws `4 * i, ..., 4 * i + 3` as `U1`, `U2`, `phi`, `U3` in this order, and leaves the
generator at position `4 * i + 4` whether it is accepted or rejected. -/
theorem loop_consumes_four_draws (a0 : ℝ) (n : Nat) (stream : Nat → ℝ) :
    (loop a0 n (sampler_init stream)).rng.pos = 4 * n ∧
      ∀ i, i < n →
        (loop a0 i (sampler_init stream)).rng.pos = 4 * i ∧
        loop a0 (i + 1) (sampler_init stream)
          = { points := (loop a0 i (sampler_init stream)).points
                ++ accepted_points a0 (draws stream i),
              rng := { stream := stream, pos := 4 * i + 4 } } := by
  refine ⟨by simp [loop_eq, sampler_init], ?_⟩
  intro i _
  refine ⟨by simp [loop_eq, sampler_init], ?_⟩
  rw [loop_succ, loop_body_eq]
  simp [loop_eq, sampler_init, draws]

/-! ## Spherical to Cartesian conversion -/

/-- Claim C5. For `r ≥ 0`, `theta` in `[0, π]` and every `phi`, the Cartesian coordinates
`x, y, z` of lines 36-38 satisfy `sqrt(x^2 + y^2 + z^2) = r`, and for `r > 0` also
`acos(z / r) = theta`. -/
theorem cartesian_round_trip (r theta phi : ℝ) (hr : 0 ≤ r) (h0 : 0 ≤ theta)
    (hpi : theta ≤ Real.pi) :
    ∃ x y z : ℝ, cartesian r theta phi = [x, y, z] ∧
      Real.sqrt (x ^ 2 + y ^ 2 + z ^ 2) = r ∧ (0 < r → Real.arccos (z / r) = theta) := by
  refine ⟨_, _, _, rfl, ?_, ?_⟩
  · have hsum : (r * Real.sin theta * Real.cos phi) ^ 2 + (r * Real.sin theta * Real.sin phi) ^ 2
        + (r * Real.cos theta) ^ 2 = r ^ 2 := by
      have h1 := Real.sin_sq_add_cos_sq theta
      have h2 := Real.sin_sq_add_cos_sq phi
      calc (r * Real.sin theta * Real.cos phi) ^ 2 + (r * Real.sin theta * Real.sin phi) ^ 2
            + (r * Real.cos theta) ^ 2
          = r ^ 2 * (Real.sin theta ^ 2 * (Real.sin phi ^ 2 + Real.cos phi ^ 2)
              + Real.cos theta ^ 2) := by ring
        _ = r ^ 2 := by rw [h2, mul_one, h1, mul_one]
    rw [hsum]
    exact Real.sqrt_sq hr
  · intro hpos
    have hne : r ≠ 0 := ne_of_gt hpos
    rw [mul_div_cancel_left₀ _ hne]
    exact Real.arccos_cos h0 hpi

/-- Witness of claim C5 at `r = 2`, `theta = 0`, `phi = 0`. -/
theorem cartesian_round_trip_witness :
    ∃ x y z : ℝ, cartesian 2 0 0 = [x, y, z] ∧
      Real.sqrt (x ^ 2 + y ^ 2 + z ^ 2) = 2 ∧ (0 < (2 : ℝ) → Real.arccos (z / 2) = 0) :=
  cartesian_round_trip 2 0 0 (by norm_num) (le_refl 0) Real.pi_pos.le

/-! ## Domain of the proposal step -/

/-- For draws `U1` in `(0, 1)` and `U2` in `[0, 1)` the proposal is in the domain of the
density: `r` is a finite number with `r > 0` and `theta` is a finite number in `[0, π]`. -/
lemma proposal_in_domain (a0 u1 u2 : ℝ) (ha : 0 < a0) (h1 : 0 < u1) (h1' : u1 < 1)
    (h2 : 0 ≤ u2) (h2' : u2 < 1) :
    ∃ r theta : ℝ, radius a0 u1 = some r ∧ polar_angle u2 = some theta ∧
      0 < r ∧ 0 ≤ theta ∧ theta ≤ Real.pi := by
  refine ⟨-a0 * Real.log u1, Real.arccos (1 - 2 * u2), ?_, ?_, ?_, Real.arccos_nonneg _,
    Real.arccos_le_pi _⟩
  · rw [radius_eq, if_pos h1]
  · rw [polar_angle_eq, if_pos ⟨h2, h2'.le⟩]
  · have hlog : Real.log u1 < 0 := Real.log_neg h1 h1'
    nlinarith

/-- Claim C7, evaluated at the draw `U1 = 0` of the range `[0, 1)`: the radius of line 28 is
not a finite number, for the Bohr radius of the source and for every other one. -/
theorem radius_at_zero_not_finite :
    (0 : ℝ) ∈ Set.Ico (0 : ℝ) 1 ∧ radius a0 0 = none ∧ ∀ b r : ℝ, radius b 0 ≠ some r := by
  refine ⟨⟨le_refl 0, zero_lt_one⟩, ?_, ?_⟩
  · rw [radius_eq, if_neg (lt_irrefl 0)]
  · intro b r
    rw [radius_eq, if_neg (lt_irrefl 0)]
    exact Option.noConfusion

/-- A candidate whose first draw is `0` is rejected whatever its other draws are. -/
lemma accepted_points_at_zero (a0 : ℝ) (d : Draw) (h : d.U1 = 0) : accepted_points a0 d = [] := by
  have hn : ¬ accepted a0 d := by
    rintro ⟨h1, _⟩
    rw [h] at h1
    exact lt_irrefl 0 h1
  simp only [accepted_points, if_neg hn]

/-! ## Distribution of the accepted candidates -/

/-- The density of the accepted candidates is the position density multiplied by a factor that
depends on the radius. -/
lemma accepted_density_eq (a0 r theta : ℝ) (ha : 0 < a0) (hr : 0 < r) :
    accepted_density a0 r theta
      = (4 * PI * a0 ^ 2 * Real.exp (2 - r / a0) / r ^ 2) * position_density a0 r theta := by
  have hpi : PI ≠ 0 := Real.pi_ne_zero
  have ha0 : a0 ≠ 0 := ne_of_gt ha
  have hr0 : r ≠ 0 := ne_of_gt hr
  have he : Real.exp (2 - r / a0) = Real.exp 2 * Real.exp (-r / a0) := by
    rw [← Real.exp_add]
    congr 1
    ring
  have he2 : Real.exp (-2) = (Real.exp 2)⁻¹ := Real.exp_neg 2
  have hA : Real.exp 2 ≠ 0 := (Real.exp_pos 2).ne'
  unfold accepted_density proposal_density acceptance_probability position_density
  rw [probability_density_2p_z_eq, max_density_eq, he, he2]
  generalize Real.exp 2 = A at hA
  generalize Real.exp (-r / a0) = E
  field_simp
  ring

/-- Claim C2 fails: for the Bohr radius of the source no constant `c > 0` makes the density of
the accepted candidates equal to `c` times the 2p_z position density at every `r > 0` and
`theta` in `(0, π)`; the quotient of the two is `4πe` at `r = 1` and `π` at `r = 2`. -/
theorem accepted_density_not_proportional :
    ¬ ∃ c : ℝ, 0 < c ∧ ∀ r theta : ℝ, 0 < r → 0 < theta → theta < Real.pi →
        accepted_density a0 r theta = c * position_density a0 r theta := by
  rintro ⟨c, _, hc⟩
  have ha : a0 = 1 := by unfold a0; norm_num
  have hpi : 0 < PI := Real.pi_pos
  have h3 : (0 : ℝ) < Real.pi / 3 := by positivity
  have h3' : Real.pi / 3 < Real.pi := by linarith [Real.pi_pos]
  have hpos : ∀ r : ℝ, 0 < r → 0 < position_density 1 r (Real.pi / 3) := by
    intro r hr
    unfold position_density
    rw [probability_density_2p_z_eq, Real.cos_pi_div_three, Real.sin_pi_div_three]
    have hn := normalization_pos 1 one_pos
    have hs : (0 : ℝ) < Real.sqrt 3 := Real.sqrt_pos.mpr (by norm_num)
    have he := Real.exp_pos (-r / 1)
    positivity
  have e1 := hc 1 (Real.pi / 3) one_pos h3 h3'
  have e2 := hc 2 (Real.pi / 3) two_pos h3 h3'
  rw [ha, accepted_density_eq 1 1 _ one_pos one_pos] at e1
  rw [ha, accepted_density_eq 1 2 _ one_pos two_pos] at e2
  have c1 := mul_right_cancel₀ (hpos 1 one_pos).ne' e1
  have c2 := mul_right_cancel₀ (hpos 2 two_pos).ne' e2
  have hx1 : Real.exp (2 - 1 / 1) = Real.exp 1 := by norm_num
  have hx2 : Real.exp (2 - 2 / 1) = 1 := by norm_num
  rw [hx1] at c1
  rw [hx2] at c2
  have hgt : (1 : ℝ) < Real.exp 1 := by
    have := Real.add_one_le_exp (1 : ℝ)
    linarith
  have : 4 * PI * 1 ^ 2 * Real.exp 1 / 1 ^ 2 = 4 * PI * 1 ^ 2 * 1 / 2 ^ 2 := by
    rw [c1, c2]
  nlinarith

/-- The envelope is the density at `r = 2 * a0`, `theta = 0`. -/
lemma max_density_attained (a0 : ℝ) (ha : 0 < a0) :
    probability_density_2p_z a0 (2 * a0) 0 = max_density a0 := by
  rw [probability_density_2p_z_eq, max_density_eq]
  have h : -(2 * a0) / a0 = -2 := by
    field_simp
  rw [h, Real.cos_zero]
  ring

/-- A worked run with one candidate: the draws `U1 = e^(-2)`, `U2 = 0`, `phi = 0`, `U3 = 1 / 2`
give `r = 2`, `theta = 0`, an acceptance quotient of 1, and the point `(0, 0, 2)`. -/
lemma generate_points_2p_z_example :
    generate_points_2p_z a0 1 example_stream = [0, 0, 2] := by
  have ha : a0 = 1 := by unfold a0; norm_num
  have hd : draws example_stream 0
      = { U1 := Real.exp (-2), U2 := 0, phi := 0, U3 := 1 / 2 } := by
    simp [draws, draws_at, example_stream]
  have hr : -(1 : ℝ) * Real.log (Real.exp (-2)) = 2 * 1 := by
    rw [Real.log_exp]
    norm_num
  have hth : Real.arccos (1 - 2 * 0) = 0 := by
    rw [mul_zero, sub_zero, Real.arccos_one]
  have hacc : accepted 1 { U1 := Real.exp (-2), U2 := 0, phi := 0, U3 := 1 / 2 } := by
    refine ⟨Real.exp_pos _, ⟨le_refl 0, zero_le_one⟩, ?_⟩
    show (1 / 2 : ℝ) ≤ probability_density_2p_z 1 (-1 * Real.log (Real.exp (-2)))
      (Real.arccos (1 - 2 * 0)) / max_density 1
    rw [hr, hth, max_density_attained 1 one_pos, div_self (max_density_pos 1 one_pos).ne']
    norm_num
  rw [generate_points_2p_z_eq, ha]
  simp only [List.range_succ, List.range_zero, List.nil_append, List.flatMap_singleton, hd,
    accepted_points, if_pos hacc, triple, hr, hth]
  simp

/-- A worked run with one candidate whose draws are all `0`: the candidate is rejected. -/
lemma generate_points_2p_z_zero_draw :
    generate_points_2p_z a0 1 (fun _ => 0) = [] := by
  rw [generate_points_2p_z_eq]
  simp only [List.range_succ, List.range_zero, List.nil_append, List.flatMap_singleton]
  exact accepted_points_at_zero a0 _ rfl

/-! ## Distribution of the proposal -/

/-- Distribution of the proposed radius: for a canonical draw `U1` uniform on `(0, 1)` the event
`r ≤ t` has the probability `∫ s in 0..t, (1 / a0) * e^(-s / a0)`, so `r` has the density
`(1 / a0) * e^(-r / a0)` used in `proposal_density`. -/
lemma radius_distribution (a0 t : ℝ) (ha : 0 < a0) :
    MeasureTheory.volume {u : ℝ | u ∈ Set.Ioo (0 : ℝ) 1 ∧ ∃ r, radius a0 u = some r ∧ r ≤ t}
      = ENNReal.ofReal (∫ s in (0 : ℝ)..t, (1 / a0) * Real.exp (-s / a0)) := by
  have hset : {u : ℝ | u ∈ Set.Ioo (0 : ℝ) 1 ∧ ∃ r, radius a0 u = some r ∧ r ≤ t}
      = Set.Ico (Real.exp (-t / a0)) 1 := by
    ext u
    simp only [Set.mem_setOf_eq, Set.mem_Ioo, Set.mem_Ico, radius_eq]
    constructor
    · rintro ⟨⟨h0, h1⟩, r, hr, hrt⟩
      rw [if_pos h0] at hr
      have hr' : -a0 * Real.log u = r := Option.some.inj hr
      refine ⟨?_, h1⟩
      rw [← Real.log_le_log_iff (Real.exp_pos _) h0, Real.log_exp, div_le_iff₀ ha]
      nlinarith
    · rintro ⟨hle, h1⟩
      have h0 : 0 < u := lt_of_lt_of_le (Real.exp_pos _) hle
      refine ⟨⟨h0, h1⟩, -a0 * Real.log u, by rw [if_pos h0], ?_⟩
      rw [← Real.log_le_log_iff (Real.exp_pos _) h0, Real.log_exp, div_le_iff₀ ha] at hle
      nlinarith
  have hint : ∫ s in (0 : ℝ)..t, (1 / a0) * Real.exp (-s / a0) = 1 - Real.exp (-t / a0) := by
    have hd : ∀ x ∈ Set.uIcc (0 : ℝ) t,
        HasDerivAt (fun s : ℝ => -Real.exp (-s / a0)) ((1 / a0) * Real.exp (-x / a0)) x := by
      intro x _
      have h := ((((hasDerivAt_id x).neg).div_const a0).exp).neg
      convert h using 1
      simp only [id, Pi.neg_apply]
      ring
    have hc : Continuous (fun s : ℝ => (1 / a0) * Real.exp (-s / a0)) := by continuity
    rw [intervalIntegral.integral_eq_sub_of_hasDerivAt hd (hc.intervalIntegrable 0 t)]
    simp
    ring
  rw [hset, hint, Real.volume_Ico]

/-- Distribution of the proposed polar angle: for a canonical draw `U2` uniform on `[0, 1]` the
event `θ ≤ t` has the probability `∫ s in 0..t, sin(s) / 2`, so `θ` has the density `sin(θ) / 2`
used in `proposal_density`. -/
lemma polar_angle_distribution (t : ℝ) (h0 : 0 ≤ t) (hpi : t ≤ Real.pi) :
    MeasureTheory.volume
        {u : ℝ | u ∈ Set.Icc (0 : ℝ) 1 ∧ ∃ theta, polar_angle u = some theta ∧ theta ≤ t}
      = ENNReal.ofReal (∫ s in (0 : ℝ)..t, Real.sin s / 2) := by
  have hcos : ∀ u : ℝ, 0 ≤ u → u ≤ 1 →
      (Real.arccos (1 - 2 * u) ≤ t ↔ u ≤ (1 - Real.cos t) / 2) := by
    intro u hu0 hu1
    have hx : (1 - 2 * u) ∈ Set.Icc (-1 : ℝ) 1 := ⟨by linarith, by linarith⟩
    have hy : Real.cos t ∈ Set.Icc (-1 : ℝ) 1 := ⟨Real.neg_one_le_cos t, Real.cos_le_one t⟩
    have h := Real.strictAntiOn_arccos.le_iff_le hx hy
    rw [Real.arccos_cos h0 hpi] at h
    rw [h]
    constructor <;> intro h' <;> linarith
  have hset : {u : ℝ | u ∈ Set.Icc (0 : ℝ) 1 ∧ ∃ theta, polar_angle u = some theta ∧ theta ≤ t}
      = Set.Icc 0 ((1 - Real.cos t) / 2) := by
    ext u
    simp only [Set.mem_setOf_eq, Set.mem_Icc, polar_angle_eq]
    constructor
    · rintro ⟨⟨hu0, hu1⟩, theta, hth, hle⟩
      rw [if_pos ⟨hu0, hu1⟩] at hth
      have hth' : Real.arccos (1 - 2 * u) = theta := Option.some.inj hth
      rw [← hth'] at hle
      exact ⟨hu0, (hcos u hu0 hu1).mp hle⟩
    · rintro ⟨hu0, hle⟩
      have hu1 : u ≤ 1 := by linarith [Real.neg_one_le_cos t]
      exact ⟨⟨hu0, hu1⟩, Real.arccos (1 - 2 * u), by rw [if_pos ⟨hu0, hu1⟩],
        (hcos u hu0 hu1).mpr hle⟩
  have hint : ∫ s in (0 : ℝ)..t, Real.sin s / 2 = (1 - Real.cos t) / 2 := by
    rw [intervalIntegral.integral_div, integral_sin, Real.cos_zero]
  rw [hset, hint, Real.volume_Icc, sub_zero]

/-! ## Mean acceptance rate -/

/-- On the unit square the acceptance probability of the candidate of the draws `(u1, u2)` is
`(e^2 / 4) * u1 * ln(u1)^2 * (1 - 2 * u2)^2`, for the Bohr radius 1. -/
lemma acceptance_probability_draw (u1 u2 : ℝ) (h1 : 0 ≤ u1) (h2 : 0 ≤ u2) (h2' : u2 ≤ 1) :
    acceptance_probability 1 (-1 * Real.log u1) (Real.arccos (1 - 2 * u2))
      = Real.exp 2 / 4 * (u1 * Real.log u1 ^ 2) * (1 - 2 * u2) ^ 2 := by
  have hcos : Real.cos (Real.arccos (1 - 2 * u2)) = 1 - 2 * u2 :=
    Real.cos_arccos (by linarith) (by linarith)
  have hexp : (-1 * Real.log u1) * (-1 * Real.log u1) * Real.exp (-(-1 * Real.log u1) / 1)
      = u1 * Real.log u1 ^ 2 := by
    rcases eq_or_lt_of_le h1 with h | h
    · rw [← h]
      simp
    · have e : -(-1 * Real.log u1) / 1 = Real.log u1 := by ring
      rw [e, Real.exp_log h]
      ring
  have hpi : PI ≠ 0 := Real.pi_ne_zero
  have hA : Real.exp 2 ≠ 0 := (Real.exp_pos 2).ne'
  unfold acceptance_probability
  rw [probability_density_2p_z_eq, max_density_eq, hexp, hcos, Real.exp_neg]
  field_simp
  ring

/-- Integral of the angular factor over the draw `u2`. -/
lemma integral_angular : ∫ u2 in (0 : ℝ)..1, (1 - 2 * u2) ^ 2 = 1 / 3 := by
  have hd : ∀ x ∈ Set.uIcc (0 : ℝ) 1,
      HasDerivAt (fun u : ℝ => -(1 - 2 * u) ^ 3 / 6) ((1 - 2 * x) ^ 2) x := by
    intro x _
    have h := (((((hasDerivAt_id x).const_mul 2).const_sub 1).pow 3).neg).div_const 6
    convert h using 1
    simp only [id]
    ring
  have hc : Continuous (fun u : ℝ => (1 - 2 * u) ^ 2) := by continuity
  rw [intervalIntegral.integral_eq_sub_of_hasDerivAt hd (hc.intervalIntegrable 0 1)]
  norm_num

/-- Integral of the radial factor over the draw `u1`. -/
lemma integral_radial : ∫ u1 in (0 : ℝ)..1, u1 * Real.log u1 ^ 2 = 1 / 4 := by
  have hml : Continuous (fun u : ℝ => u * Real.log u) := Real.continuous_mul_log
  have hcont : ContinuousOn
      (fun u : ℝ => (u * Real.log u) ^ 2 / 2 - u * (u * Real.log u) / 2 + u ^ 2 / 4)
      (Set.Icc 0 1) := by
    apply Continuous.continuousOn
    continuity
  have hderiv : ∀ x ∈ Set.Ioo (0 : ℝ) 1,
      HasDerivAt (fun u : ℝ => (u * Real.log u) ^ 2 / 2 - u * (u * Real.log u) / 2 + u ^ 2 / 4)
        (x * Real.log x ^ 2) x := by
    intro x hx
    have hx0 : x ≠ 0 := ne_of_gt hx.1
    have hlog : HasDerivAt Real.log x⁻¹ x := Real.hasDerivAt_log hx0
    have hid : HasDerivAt (fun u : ℝ => u) 1 x := hasDerivAt_id x
    have hul := hid.mul hlog
    have h := (((hul.pow 2).div_const 2).sub ((hid.mul hul).div_const 2)).add
      ((hid.pow 2).div_const 4)
    convert h using 1
    field_simp
    ring
  have hsq : Continuous (fun u : ℝ => 4 * (Real.sqrt u * Real.log (Real.sqrt u)) ^ 2) :=
    continuous_const.mul ((hml.comp Real.continuous_sqrt).pow 2)
  have heq : Set.EqOn (fun u : ℝ => u * Real.log u ^ 2)
      (fun u : ℝ => 4 * (Real.sqrt u * Real.log (Real.sqrt u)) ^ 2) (Set.Icc 0 1) := by
    intro u hu
    have hs : Real.sqrt u ^ 2 = u := Real.sq_sqrt hu.1
    show u * Real.log u ^ 2 = 4 * (Real.sqrt u * Real.log (Real.sqrt u)) ^ 2
    rw [Real.log_sqrt hu.1, mul_pow, hs]
    ring
  have hint : IntervalIntegrable (fun u : ℝ => u * Real.log u ^ 2) MeasureTheory.volume 0 1 :=
    (hsq.continuousOn.congr heq).intervalIntegrable_of_Icc zero_le_one
  rw [intervalIntegral.integral_eq_sub_of_hasDerivAt_of_le zero_le_one hcont hderiv hint]
  norm_num

/-- The mean acceptance probability for the Bohr radius 1 is `e^2 / 48`. -/
lemma mean_acceptance_one : mean_acceptance 1 = Real.exp 2 / 48 := by
  unfold mean_acceptance
  have hinner : ∀ u1 ∈ Set.uIcc (0 : ℝ) 1,
      (∫ u2 in (0 : ℝ)..1,
        acceptance_probability 1 (-1 * Real.log u1) (Real.arccos (1 - 2 * u2)))
        = Real.exp 2 / 12 * (u1 * Real.log u1 ^ 2) := by
    intro u1 hu1
    rw [Set.uIcc_of_le zero_le_one] at hu1
    have hcongr : ∀ u2 ∈ Set.uIcc (0 : ℝ) 1,
        acceptance_probability 1 (-1 * Real.log u1) (Real.arccos (1 - 2 * u2))
          = Real.exp 2 / 4 * (u1 * Real.log u1 ^ 2) * (1 - 2 * u2) ^ 2 := by
      intro u2 hu2
      rw [Set.uIcc_of_le zero_le_one] at hu2
      exact acceptance_probability_draw u1 u2 hu1.1 hu2.1 hu2.2
    rw [intervalIntegral.integral_congr hcongr, intervalIntegral.integral_const_mul,
      integral_angular]
    ring
  rw [intervalIntegral.integral_congr hinner, intervalIntegral.integral_const_mul,
    integral_radial]
  ring

/-- Bounds on `e^2`. -/
lemma exp_two_bounds : (7.38 : ℝ) < Real.exp 2 ∧ Real.exp 2 < 7.39 := by
  have h1 := Real.exp_one_gt_d9
  have h2 := Real.exp_one_lt_d9
  have h : Real.exp 2 = Real.exp 1 * Real.exp 1 := by
    rw [← Real.exp_add]
    norm_num
  rw [h]
  constructor <;> nlinarith

/-- Claim C6 as stated fails: for the Bohr radius of the source the mean acceptance probability
is not in the interval `[0.05, 0.15]`. -/
theorem mean_acceptance_not_in_range :
    ¬ ((0.05 : ℝ) ≤ mean_acceptance a0 ∧ mean_acceptance a0 ≤ 0.15) := by
  have ha : a0 = 1 := by unfold a0; norm_num
  rw [ha, mean_acceptance_one]
  have h := exp_two_bounds
  rintro ⟨_, hle⟩
  norm_num at hle h
  linarith [h.1]

/-- Claim C6, amended. For the Bohr radius of the source the mean over `(U1, U2)` of the
acceptance probability is `e^2 / 48`, which lies in the interval `[0.05, 0.16]`, above
`0.15`. -/
theorem mean_acceptance_value :
    mean_acceptance a0 = Real.exp 2 / 48 ∧
      (0.05 : ℝ) ≤ mean_acceptance a0 ∧ mean_acceptance a0 ≤ 0.16 ∧
      (0.15 : ℝ) < mean_acceptance a0 := by
  have ha : a0 = 1 := by unfold a0; norm_num
  rw [ha, mean_acceptance_one]
  have h := exp_two_bounds
  norm_num at h ⊢
  refine ⟨?_, ?_, ?_⟩ <;> linarith [h.1, h.2]

end OrbitalVisualizer
